import Mathlib

/-!
# A shallow embedding of the disaster-dataset analysis pipeline

This file models, in Lean, the tabular pipeline of `src/CODE.py`
(a Streamlit exploratory-data-analysis app built on pandas):

* cleaning: `df.fillna("Unknown")`;
* normalization: `df_clean['country'].astype(str).str.title()`;
* wrangling: `df_clean['location_length'] = df_clean['location'].astype(str).apply(len)`,
  `df_encoded['disastertype_code'] = df_encoded['disastertype'].astype('category').cat.codes`;
* filtering: `df_clean[df_clean['continent'] == "Asia"]` with an `st.info` fallback;
* aggregation: `df_clean.groupby("country").size()`;
* rendering: bar chart, donut chart, histogram with a gaussian-KDE overlay.

A table is a header (list of column names) plus a list of rows of cells.
A cell is null (pandas `NaN`), a string, or an integer.  Python/pandas
semantics of each library call is spelled out at the corresponding
definition.  All definitions are executable so concrete tables evaluate
by `decide` / `rfl`.
-/

/-- A single cell of a pandas DataFrame: missing (`NaN`), text, or an integer. -/
inductive Cell where
  | null
  | str (s : String)
  | num (n : Int)
deriving DecidableEq, Repr

/-- Python `str(x)` as pandas `astype(str)` applies it cellwise:
`str(nan) = "nan"`, strings unchanged, integers printed in decimal. -/
def pyStr : Cell → String
  | Cell.null => "nan"
  | Cell.str s => s
  | Cell.num n => toString n

/-- An in-memory DataFrame: named columns aligned by row index.
`header` lists the column names; each element of `rows` is one row. -/
structure Table where
  header : List String
  rows : List (List Cell)
deriving DecidableEq, Repr

/-- Index of the first occurrence of a value in a list (`none` if absent).
This is both the column-name lookup into a table header and the
code lookup into a pandas categorical's `categories` array. -/
def posOf : List String → String → Option Nat
  | [], _ => none
  | a :: as, v => if a = v then some 0 else (posOf as v).map (· + 1)

theorem posOf_eq_none {l : List String} {v : String} : posOf l v = none ↔ v ∉ l := by
  induction l with
  | nil => simp [posOf]
  | cons a as ih =>
    by_cases h : a = v
    · subst h
      simp [posOf]
    · have h' : ¬(v = a) := fun hv => h hv.symm
      simp [posOf, if_neg h, Option.map_eq_none', ih, h']

theorem posOf_isSome_of_mem {l : List String} {v : String} (h : v ∈ l) :
    ∃ i, posOf l v = some i := by
  cases hp : posOf l v with
  | none => exact absurd h (posOf_eq_none.mp hp)
  | some i => exact ⟨i, rfl⟩

theorem posOf_some_lt {l : List String} {v : String} {i : Nat} (h : posOf l v = some i) :
    i < l.length := by
  induction l generalizing i with
  | nil => simp [posOf] at h
  | cons a as ih =>
    by_cases ha : a = v
    · simp only [posOf, if_pos ha, Option.some.injEq] at h
      simp only [List.length_cons]
      omega
    · simp only [posOf, if_neg ha] at h
      cases hp : posOf as v with
      | none => simp [hp] at h
      | some j =>
        simp [hp] at h
        have := ih hp
        simp only [List.length_cons]
        omega

theorem posOf_get {l : List String} {v : String} {i : Nat} (h : posOf l v = some i)
    (hi : i < l.length) : l[i] = v := by
  induction l generalizing i with
  | nil => simp [posOf] at h
  | cons a as ih =>
    by_cases ha : a = v
    · simp [posOf, ha] at h
      subst h
      simpa using ha
    · simp only [posOf, if_neg ha] at h
      cases hp : posOf as v with
      | none => simp [hp] at h
      | some j =>
        simp [hp] at h
        subst h
        have hj : j < as.length := posOf_some_lt hp
        simpa using ih hp hj

theorem posOf_get_self {l : List String} (hnd : l.Nodup) (i : Nat) (hi : i < l.length) :
    posOf l l[i] = some i := by
  induction l generalizing i with
  | nil => simp at hi
  | cons a as ih =>
    rcases List.nodup_cons.mp hnd with ⟨hna, hnd'⟩
    cases i with
    | zero => simp [posOf]
    | succ j =>
      have hj : j < as.length := by simpa using hi
      have hmem : as[j] ∈ as := List.getElem_mem hj
      have hne : a ≠ as[j] := fun hc => hna (hc ▸ hmem)
      simp only [List.getElem_cons_succ, posOf, if_neg hne, ih hnd' j hj, Option.map_some']

theorem posOf_append_self {l : List String} {v : String} (h : v ∉ l) :
    posOf (l ++ [v]) v = some l.length := by
  induction l with
  | nil => simp [posOf]
  | cons a as ih =>
    have hne : a ≠ v := fun hc => h (hc ▸ List.mem_cons_self a as)
    have h' : v ∉ as := fun hc => h (List.mem_cons_of_mem a hc)
    simp [posOf, hne, ih h']

/-- Cell of a row in column position `j` (`NaN` when the row is too short;
pandas tables are rectangular, so the default never fires on well-formed data). -/
def cellAt (r : List Cell) (j : Nat) : Cell := r.getD j Cell.null

/-- The cells of the named column, in row order (empty when the column is absent). -/
def colCells (t : Table) (name : String) : List Cell :=
  match posOf t.header name with
  | some j => t.rows.map (fun r => cellAt r j)
  | none => []

/-- The named column rendered to text, cell by cell (pandas `astype(str)`). -/
def colStrings (t : Table) (name : String) : List String :=
  (colCells t name).map pyStr

/-- `df[name] = f(row)` — pandas column assignment: overwrite the column in
place when the name exists, otherwise append it on the right. -/
def putCol (t : Table) (name : String) (f : List Cell → Cell) : Table :=
  match posOf t.header name with
  | some j => ⟨t.header, t.rows.map (fun r => r.set j (f r))⟩
  | none => ⟨t.header ++ [name], t.rows.map (fun r => r ++ [f r])⟩

/-- Cellwise update of one column (`df[name] = df[name].map g`);
a no-op when the column is absent. -/
def mapCol (t : Table) (name : String) (g : Cell → Cell) : Table :=
  match posOf t.header name with
  | some j => ⟨t.header, t.rows.map (fun r => r.set j (g (cellAt r j)))⟩
  | none => t

/-- `true` iff no cell of the table is null. -/
def Table.noNullsB (t : Table) : Bool :=
  t.rows.all (fun r => r.all (fun c => !(c == Cell.null)))

/-- `true` iff every row has exactly one cell per header entry
(pandas DataFrames are rectangular by construction). -/
def Table.rectB (t : Table) : Bool :=
  t.rows.all (fun r => r.length == t.header.length)

/-! ## Python `str.title()`

CPython's `do_title` walks the string with a `previous_is_cased` flag:
every character is rewritten by the *full* lowercase mapping when the flag
is set and by the full titlecase mapping when it is not (a full mapping may
produce more than one code point), and the flag is then updated to whether
the input character has the Unicode `Cased` property.  Because the
uncased-ness pattern of the output can differ from the input's, `title()`
is not idempotent on all of Unicode.

We carry exact case data for the fragment of Unicode this development
evaluates: the ASCII range, plus U+0130 (İ — cased; its full lowercase is
`i` followed by the combining dot above U+0307) and U+0307 (uncased, fixed
by both mappings).  Code points outside the fragment are treated as
uncased with identity mappings, so theorems about `pyTitle` quantify only
over strings inside the fragment; concrete evaluations stay inside it. -/

/-- Does the character have the Unicode `Cased` property, on the covered
fragment: the ASCII letters and U+0130 (İ).  (U+0307 is not cased.) -/
def pyCased (c : Char) : Bool :=
  decide ((65 ≤ c.toNat ∧ c.toNat ≤ 90) ∨ (97 ≤ c.toNat ∧ c.toNat ≤ 122) ∨
    c.toNat = 304)

/-- Full lowercase mapping on the covered fragment: `İ` (U+0130) maps to
`i` followed by the combining dot above (U+0307); ASCII letters map by
`Char.toLower`; everything else is fixed. -/
def pyLowerFull (c : Char) : List Char :=
  if c.toNat = 304 then ['i', '\u0307'] else [c.toLower]

/-- Full titlecase mapping on the covered fragment: titlecase agrees with
`Char.toUpper` there (`İ` and U+0307 are fixed points of both). -/
def pyTitlecaseFull (c : Char) : List Char :=
  [c.toUpper]

/-- The character-list traversal of CPython's `do_title`: map each
character by the full lowercase (flag set) or full titlecase (flag clear)
mapping; the next flag is the cased-ness of the input character. -/
def pyTitleGo (prev : Bool) : List Char → List Char
  | [] => []
  | c :: cs =>
    (if prev then pyLowerFull c else pyTitlecaseFull c) ++ pyTitleGo (pyCased c) cs

/-- Python `s.title()` on the covered fragment. -/
def pyTitle (s : String) : String :=
  ⟨pyTitleGo false s.data⟩

/-- `true` iff every character of the string is ASCII — the region where
the case tables above are complete, hence where title-casing theorems are
stated. -/
def asciiOnly (s : String) : Bool :=
  s.data.all (fun c => decide (c.toNat ≤ 127))

theorem char_toNat_ofNat {n : Nat} (h : n.isValidChar) : (Char.ofNat n).toNat = n := by
  rw [Char.ofNat, dif_pos h]
  rfl

theorem toNat_toUpper (c : Char) :
    c.toUpper.toNat = if 97 ≤ c.toNat ∧ c.toNat ≤ 122 then c.toNat - 32 else c.toNat := by
  unfold Char.toUpper
  split
  · rename_i h
    have hh : 97 ≤ c.toNat ∧ c.toNat ≤ 122 := by
      constructor <;> omega
    rw [if_pos hh]
    exact char_toNat_ofNat (Or.inl (by omega))
  · rename_i h
    rw [if_neg (by omega)]

theorem toNat_toLower (c : Char) :
    c.toLower.toNat = if 65 ≤ c.toNat ∧ c.toNat ≤ 90 then c.toNat + 32 else c.toNat := by
  unfold Char.toLower
  split
  · rename_i h
    have hh : 65 ≤ c.toNat ∧ c.toNat ≤ 90 := by
      constructor <;> omega
    rw [if_pos hh]
    exact char_toNat_ofNat (Or.inl (by omega))
  · rename_i h
    rw [if_neg (by omega)]

theorem pyCased_toUpper (c : Char) : pyCased c.toUpper = pyCased c := by
  unfold pyCased
  rw [toNat_toUpper]
  split <;> rename_i h <;> exact decide_eq_decide.mpr (by omega)

theorem pyCased_toLower (c : Char) : pyCased c.toLower = pyCased c := by
  unfold pyCased
  rw [toNat_toLower]
  split <;> rename_i h <;> exact decide_eq_decide.mpr (by omega)

theorem toUpper_eq_self (c : Char) (h : ¬(97 ≤ c.toNat ∧ c.toNat ≤ 122)) :
    c.toUpper = c := by
  unfold Char.toUpper
  rw [if_neg (by omega)]

theorem toLower_eq_self (c : Char) (h : ¬(65 ≤ c.toNat ∧ c.toNat ≤ 90)) :
    c.toLower = c := by
  unfold Char.toLower
  rw [if_neg (by omega)]

theorem toUpper_toUpper (c : Char) : c.toUpper.toUpper = c.toUpper := by
  by_cases h : 97 ≤ c.toNat ∧ c.toNat ≤ 122
  · have h1 : c.toUpper.toNat = c.toNat - 32 := by rw [toNat_toUpper, if_pos h]
    exact toUpper_eq_self c.toUpper (by omega)
  · have h1 : c.toUpper = c := toUpper_eq_self c h
    rw [h1, h1]

theorem toLower_toLower (c : Char) : c.toLower.toLower = c.toLower := by
  by_cases h : 65 ≤ c.toNat ∧ c.toNat ≤ 90
  · have h1 : c.toLower.toNat = c.toNat + 32 := by rw [toNat_toLower, if_pos h]
    exact toLower_eq_self c.toLower (by omega)
  · have h1 : c.toLower = c := toLower_eq_self c h
    rw [h1, h1]

theorem toUpper_ascii {c : Char} (h : c.toNat ≤ 127) : c.toUpper.toNat ≤ 127 := by
  rw [toNat_toUpper]
  split <;> omega

theorem toLower_ascii {c : Char} (h : c.toNat ≤ 127) : c.toLower.toNat ≤ 127 := by
  rw [toNat_toLower]
  split <;> omega

theorem pyLowerFull_ascii {c : Char} (h : c.toNat ≤ 127) :
    pyLowerFull c = [c.toLower] := by
  unfold pyLowerFull
  rw [if_neg (by omega)]

theorem pyTitleGo_idem_ascii (l : List Char) :
    ∀ prev, (l.all fun c => decide (c.toNat ≤ 127)) = true →
      pyTitleGo prev (pyTitleGo prev l) = pyTitleGo prev l := by
  induction l with
  | nil =>
    intro prev _
    rfl
  | cons c cs ih =>
    intro prev h
    rw [List.all_cons, Bool.and_eq_true] at h
    obtain ⟨hc, hcs⟩ := h
    have hc' : c.toNat ≤ 127 := of_decide_eq_true hc
    cases prev with
    | false =>
      have e1 : pyTitleGo false (c :: cs) =
          c.toUpper :: pyTitleGo (pyCased c) cs := rfl
      have e2 : pyTitleGo false (c.toUpper :: pyTitleGo (pyCased c) cs) =
          c.toUpper.toUpper ::
            pyTitleGo (pyCased c.toUpper) (pyTitleGo (pyCased c) cs) := rfl
      rw [e1, e2, toUpper_toUpper, pyCased_toUpper, ih (pyCased c) hcs]
    | true =>
      have e1 : pyTitleGo true (c :: cs) =
          c.toLower :: pyTitleGo (pyCased c) cs := by
        show pyLowerFull c ++ _ = _
        rw [pyLowerFull_ascii hc']
        rfl
      have e2 : pyTitleGo true (c.toLower :: pyTitleGo (pyCased c) cs) =
          c.toLower.toLower ::
            pyTitleGo (pyCased c.toLower) (pyTitleGo (pyCased c) cs) := by
        show pyLowerFull c.toLower ++ _ = _
        rw [pyLowerFull_ascii (toLower_ascii hc')]
        rfl
      rw [e1, e2, toLower_toLower, pyCased_toLower, ih (pyCased c) hcs]

theorem pyTitle_idem_ascii {s : String} (h : asciiOnly s = true) :
    pyTitle (pyTitle s) = pyTitle s := by
  unfold pyTitle
  exact congrArg String.mk (pyTitleGo_idem_ascii s.data false h)

/-! ## Lexicographic string order

Python compares strings lexicographically by code point; pandas sorts the
categories of an object-dtype column and the keys of a `groupby` with this
order.  We use a structurally recursive comparison on the character lists
(so that it evaluates inside the kernel) and link it to Mathlib's linear
order on `String`. -/

/-- Python `s < t` on strings: lexicographic by code point. -/
def strLtB (s t : String) : Bool := decide (s.data < t.data)

/-- Python `s <= t` on strings. -/
def strLeB (s t : String) : Bool := !(strLtB t s)

/-- `strLeB` as a relation, for use with `List.insertionSort`. -/
def strLeP (s t : String) : Prop := strLeB s t = true

instance : DecidableRel strLeP := fun _ _ => inferInstanceAs (Decidable (_ = true))

theorem strLtB_iff {s t : String} : strLtB s t = true ↔ s < t := by
  rw [String.lt_iff_toList_lt]
  simp [strLtB, String.toList]

theorem strLeP_iff {s t : String} : strLeP s t ↔ s ≤ t := by
  show (!(strLtB t s)) = true ↔ s ≤ t
  rw [Bool.not_eq_true', Bool.eq_false_iff]
  constructor
  · intro h
    by_contra hle
    exact h (strLtB_iff.mpr (lt_of_not_le hle))
  · intro h hc
    exact absurd (strLtB_iff.mp hc) (not_lt_of_le h)

instance : IsTotal String strLeP :=
  ⟨fun a b => by rw [strLeP_iff, strLeP_iff]; exact le_total a b⟩

instance : IsTrans String strLeP :=
  ⟨fun a b c h1 h2 => by
    rw [strLeP_iff] at *
    exact le_trans h1 h2⟩

/-! ## Categorical encoding

`astype('category')` on an object column builds the array of *sorted*
distinct values (`Categorical.categories`); `.cat.codes` then maps every
cell to the position of its value in that array (`-1` for `NaN`, which
cannot occur after the null-fill).  We realize "sorted distinct values"
as an insertion sort of the deduplicated value list. -/

/-- The `categories` array of `astype('category')`: the distinct values of
the column, sorted ascending (lexicographically for strings). -/
def categories (l : List String) : List String :=
  List.insertionSort strLeP l.dedup

/-- `cat.codes` of one value: its position in the sorted categories array
(`-1` when absent, pandas' code for `NaN`). -/
def catCode (l : List String) (v : String) : Int :=
  match posOf (categories l) v with
  | some i => Int.ofNat i
  | none => -1

/-- The whole `disastertype_code` column: `cat.codes` cell by cell. -/
def encodeColumn (l : List String) : List Int :=
  l.map (catCode l)

/-- Modelled from the spec: the code assignment the specification describes,
with distinct values numbered 0, 1, 2, … in order of first appearance
(this is *not* what `astype('category').cat.codes` computes). -/
def firstSeenDistinct (l : List String) : List String :=
  l.foldl (fun acc v => if v ∈ acc then acc else acc ++ [v]) []

/-- Modelled from the spec: first-seen code of one value. -/
def firstSeenCode (l : List String) (v : String) : Int :=
  match posOf (firstSeenDistinct l) v with
  | some i => Int.ofNat i
  | none => -1

/-! ## Grouping

`df_clean.groupby("country").size()` partitions the rows by the value of
the column, drops `NaN` keys (`dropna=True` is the pandas default), sorts
the remaining keys ascending (`sort=True` is the default) and reports each
group's size. -/

/-- Key order used by `groupby` for sorting; on the string-valued columns
of this pipeline it is the lexicographic order of the cell texts. -/
def cellLeP (a b : Cell) : Prop := strLeB (pyStr a) (pyStr b) = true

instance : DecidableRel cellLeP := fun _ _ => inferInstanceAs (Decidable (_ = true))

instance : IsTotal Cell cellLeP :=
  ⟨fun a b => IsTotal.total (r := strLeP) (pyStr a) (pyStr b)⟩

instance : IsTrans Cell cellLeP :=
  ⟨fun a b c h1 h2 => IsTrans.trans (r := strLeP) (pyStr a) (pyStr b) (pyStr c) h1 h2⟩

/-- `groupby(column).size()`: one `(key, size)` entry per distinct non-null
value of the column, keys sorted ascending. -/
def countByGroup (col : List Cell) : List (Cell × Nat) :=
  let vals := col.filter (fun c => !(c == Cell.null))
  (List.insertionSort cellLeP vals.dedup).map (fun v => (v, vals.count v))

/-! ## The pipeline operations of `CODE.py` -/

/-- One cell of `df.fillna(sentinel)`: replace `NaN`, keep everything else. -/
def fillCell (sentinel : String) : Cell → Cell
  | Cell.null => Cell.str sentinel
  | c => c

/-- `df_clean = df.fillna("Unknown")` (line 48), for an arbitrary sentinel. -/
def fillNulls (t : Table) (sentinel : String) : Table :=
  ⟨t.header, t.rows.map (List.map (fillCell sentinel))⟩

/-- Lines 58–59: `df_clean['country'] = df_clean['country'].astype(str).str.title()`,
guarded by `if "country" in df_clean.columns`.  The guard coincides with
`mapCol`'s no-op on an absent column, so it needs no separate `if`. -/
def normalizeCountry (t : Table) : Table :=
  mapCol t "country" (fun c => Cell.str (pyTitle (pyStr c)))

/-- Lines 73–74: `df_clean['location_length'] = df_clean['location'].astype(str).apply(len)`,
guarded by `if "location" in df_clean.columns`. -/
def deriveLength (t : Table) : Table :=
  match posOf t.header "location" with
  | some j => putCol t "location_length"
      (fun r => Cell.num (Int.ofNat (pyStr (cellAt r j)).length))
  | none => t

/-- Lines 78–80: `df_encoded = df_clean.copy();
df_encoded['disastertype_code'] = df_encoded['disastertype'].astype('category').cat.codes`,
guarded by `if "disastertype" in df_clean.columns`. -/
def encodeCategory (t : Table) : Table :=
  match posOf t.header "disastertype" with
  | some j => putCol t "disastertype_code"
      (fun r => Cell.num (catCode (colStrings t "disastertype") (pyStr (cellAt r j))))
  | none => t

/-- The boolean-mask filter `df_clean[df_clean[name] == v]`: keeps the rows
whose cell in the named column equals `v` (exact, case-sensitive cell
equality; `NaN == v` is false).  Requires the column to be present. -/
def filterEquals (t : Table) (name : String) (v : Cell) : Table :=
  match posOf t.header name with
  | some j => ⟨t.header, t.rows.filter (fun r => cellAt r j == v)⟩
  | none => t

/-- One element of the app's output surface. -/
inductive Event where
  | table (t : Table)
  | groupResult (g : List (Cell × Nat))
  | info (msg : String)
  | chart (kind : String)
deriving DecidableEq, Repr

/-- Lines 91–94: show `df_clean[df_clean['continent'] == "Asia"]` when the
column exists, otherwise `st.info("Continent column not found.")`. -/
def filterStage (t : Table) : List Event :=
  if "continent" ∈ t.header then
    [Event.table (filterEquals t "continent" (Cell.str "Asia"))]
  else
    [Event.info "Continent column not found."]

/-- Lines 104–105: show `df_clean.groupby("country").size()` when the column
exists.  The `if` has no `else` branch: an absent column displays nothing. -/
def aggStage (t : Table) : List Event :=
  if "country" ∈ t.header then
    [Event.groupResult (countByGroup (colCells t "country"))]
  else
    []

/-! ## Renderers

Each chart block is guarded by a column-presence check and otherwise
skipped; a raised exception is an `Except.error`.

* Bar (lines 119–136): `value_counts` plus `ax.barh` — no failure mode for
  any cell data (matplotlib pads or cycles colors, and draws zero bars for
  an empty column).
* Donut (lines 140–157): `value_counts().plot(kind='pie', ...)` plus a
  centre circle — likewise total.
* Histogram + KDE (lines 164–187): `ax3.hist(..., bins=12)` is total, but
  the `plot(kind='kde')` overlay calls `scipy.stats.gaussian_kde`, which
  raises `ValueError` on a dataset of fewer than two elements and a
  linear-algebra error (singular covariance) when all elements are equal. -/

/-- `scipy.stats.gaussian_kde(data)`: fails on fewer than two data points
(`dataset input should have multiple elements`) and on zero-variance data
(singular covariance matrix); otherwise succeeds. -/
def gaussianKde (data : List Cell) : Except String Unit :=
  match data with
  | [] => Except.error "dataset input should have multiple elements"
  | [_] => Except.error "dataset input should have multiple elements"
  | a :: rest =>
    if rest.all (fun c => c == a) then
      Except.error "singular covariance matrix"
    else
      Except.ok ()

/-- The inputs on which `gaussian_kde` is defined: at least two data points,
not all equal (a characterization used to state when the KDE overlay of the
histogram block completes). -/
def kdeDefined (data : List Cell) : Bool :=
  decide (2 ≤ data.length) && !(data.all (fun c => c == data.headD Cell.null))

/-- The bar-chart block: draw when `country` is present, else skip. -/
def renderBar (t : Table) : Except String (List Event) :=
  Except.ok (if "country" ∈ t.header then [Event.chart "bar"] else [])

/-- The donut-chart block: draw when `disastertype` is present, else skip. -/
def renderDonut (t : Table) : Except String (List Event) :=
  Except.ok (if "disastertype" ∈ t.header then [Event.chart "donut"] else [])

/-- The histogram block: when `location_length` is present, draw the
histogram and then overlay the KDE curve (which may raise); else skip. -/
def renderHist (t : Table) : Except String (List Event) :=
  if "location_length" ∈ t.header then
    match gaussianKde (colCells t "location_length") with
    | Except.ok _ => Except.ok [Event.chart "hist"]
    | Except.error e => Except.error e
  else
    Except.ok []

/-- The working table after the in-place stages of sections 2 and 3 of
`CODE.py`: null-fill, country title-casing, `location_length` derivation.
(The sorted view of line 70 is displayed but never assigned back, and the
encoded table of lines 79–80 is built on a copy.) -/
def pipelineTable (t : Table) : Table :=
  deriveLength (normalizeCountry (fillNulls t "Unknown"))

/-! ## Structural lemmas about tables -/

theorem cellAt_concat (r : List Cell) (c : Cell) : cellAt (r ++ [c]) r.length = c := by
  simp [cellAt, List.getD_eq_getElem?_getD, List.getElem?_concat_length]

theorem cellAt_set_self {r : List Cell} {j : Nat} (v : Cell) (h : j < r.length) :
    cellAt (r.set j v) j = v := by
  simp [cellAt, List.getD_eq_getElem?_getD, List.getElem?_set_self h]

theorem rect_rows {t : Table} (h : t.rectB = true) :
    ∀ r ∈ t.rows, r.length = t.header.length := by
  intro r hr
  simpa using List.all_eq_true.mp h r hr

theorem colCells_eq {t : Table} {name : String} {j : Nat}
    (hj : posOf t.header name = some j) :
    colCells t name = t.rows.map (fun r => cellAt r j) := by
  simp [colCells, hj]

theorem colCells_length {t : Table} {name : String} {j : Nat}
    (hj : posOf t.header name = some j) :
    (colCells t name).length = t.rows.length := by
  simp [colCells_eq hj]

theorem putCol_append (t : Table) (name : String) (f : List Cell → Cell)
    (hn : name ∉ t.header) (hrect : t.rectB = true) :
    (putCol t name f).header = t.header ++ [name] ∧
    (putCol t name f).rows = t.rows.map (fun r => r ++ [f r]) ∧
    colCells (putCol t name f) name = t.rows.map f := by
  have hp : posOf t.header name = none := posOf_eq_none.mpr hn
  have hh : (putCol t name f).header = t.header ++ [name] := by
    unfold putCol
    rw [hp]
  have hr : (putCol t name f).rows = t.rows.map (fun r => r ++ [f r]) := by
    unfold putCol
    rw [hp]
  refine ⟨hh, hr, ?_⟩
  have hj : posOf (putCol t name f).header name = some t.header.length := by
    rw [hh]
    exact posOf_append_self hn
  rw [colCells_eq hj, hr, List.map_map]
  apply List.map_congr_left
  intro r hrr
  show cellAt (r ++ [f r]) t.header.length = f r
  rw [← rect_rows hrect r hrr]
  exact cellAt_concat r (f r)

theorem mapCol_header (t : Table) (name : String) (g : Cell → Cell) :
    (mapCol t name g).header = t.header := by
  unfold mapCol
  split <;> rfl

theorem row_update_idem (g : Cell → Cell) (j : Nat) (r : List Cell)
    (hg : g (g (cellAt r j)) = g (cellAt r j)) :
    (r.set j (g (cellAt r j))).set j
        (g (cellAt (r.set j (g (cellAt r j))) j)) =
      r.set j (g (cellAt r j)) := by
  by_cases hj : j < r.length
  · rw [cellAt_set_self _ hj, hg, List.set_set]
  · have hle : r.length ≤ j := Nat.le_of_not_lt hj
    rw [List.set_eq_of_length_le hle]
    exact List.set_eq_of_length_le hle

theorem mapCol_eq {t : Table} {name : String} {j : Nat} (g : Cell → Cell)
    (hp : posOf t.header name = some j) :
    mapCol t name g = ⟨t.header, t.rows.map (fun r => r.set j (g (cellAt r j)))⟩ := by
  unfold mapCol
  rw [hp]

theorem mapCol_eq_self {t : Table} {name : String} (g : Cell → Cell)
    (hp : posOf t.header name = none) : mapCol t name g = t := by
  unfold mapCol
  rw [hp]

theorem mapCol_idem_of (t : Table) (name : String) (g : Cell → Cell)
    (hg : ∀ c ∈ colCells t name, g (g c) = g c) :
    mapCol (mapCol t name g) name g = mapCol t name g := by
  cases hp : posOf t.header name with
  | none =>
    have h1 : mapCol t name g = t := mapCol_eq_self g hp
    rw [h1, h1]
  | some j =>
    have h1 : mapCol t name g =
        ⟨t.header, t.rows.map (fun r => r.set j (g (cellAt r j)))⟩ := mapCol_eq g hp
    have h2 : mapCol (mapCol t name g) name g =
        ⟨t.header, (t.rows.map (fun r => r.set j (g (cellAt r j)))).map
            (fun r => r.set j (g (cellAt r j)))⟩ := by
      rw [h1]
      exact mapCol_eq g hp
    rw [h2, h1, List.map_map]
    congr 1
    apply List.map_congr_left
    intro r hr
    refine row_update_idem g j r (hg (cellAt r j) ?_)
    rw [colCells_eq hp]
    exact List.mem_map_of_mem _ hr

/-! ## Null-freeness lemmas -/

theorem noNulls_iff {t : Table} :
    t.noNullsB = true ↔ ∀ r ∈ t.rows, ∀ c ∈ r, c ≠ Cell.null := by
  simp [Table.noNullsB, List.all_eq_true]

theorem fillCell_ne_null (s : String) (c : Cell) : fillCell s c ≠ Cell.null := by
  cases c <;> simp [fillCell]

theorem noNulls_fillNulls (t : Table) (s : String) : (fillNulls t s).noNullsB = true := by
  rw [noNulls_iff]
  intro r hr c hc
  simp only [fillNulls, List.mem_map] at hr
  obtain ⟨r₀, _, rfl⟩ := hr
  obtain ⟨c₀, _, rfl⟩ := List.mem_map.mp hc
  exact fillCell_ne_null s c₀

theorem noNulls_mapCol {t : Table} (name : String) (g : Cell → Cell)
    (h : t.noNullsB = true) (hg : ∀ c, g c ≠ Cell.null) :
    (mapCol t name g).noNullsB = true := by
  unfold mapCol
  cases hp : posOf t.header name with
  | none => exact h
  | some j =>
    rw [noNulls_iff]
    intro r hr c hc
    simp only [List.mem_map] at hr
    obtain ⟨r₀, hr₀, rfl⟩ := hr
    rcases List.mem_or_eq_of_mem_set hc with hold | hnew
    · exact noNulls_iff.mp h r₀ hr₀ c hold
    · rw [hnew]
      exact hg _

theorem noNulls_putCol {t : Table} (name : String) (f : List Cell → Cell)
    (h : t.noNullsB = true) (hf : ∀ r, f r ≠ Cell.null) :
    (putCol t name f).noNullsB = true := by
  unfold putCol
  cases hp : posOf t.header name with
  | some j =>
    rw [noNulls_iff]
    intro r hr c hc
    simp only [List.mem_map] at hr
    obtain ⟨r₀, hr₀, rfl⟩ := hr
    rcases List.mem_or_eq_of_mem_set hc with hold | hnew
    · exact noNulls_iff.mp h r₀ hr₀ c hold
    · rw [hnew]
      exact hf _
  | none =>
    rw [noNulls_iff]
    intro r hr c hc
    simp only [List.mem_map] at hr
    obtain ⟨r₀, hr₀, rfl⟩ := hr
    rcases List.mem_append.mp hc with hold | hnew
    · exact noNulls_iff.mp h r₀ hr₀ c hold
    · rw [List.mem_singleton.mp hnew]
      exact hf _

theorem noNulls_normalizeCountry {t : Table} (h : t.noNullsB = true) :
    (normalizeCountry t).noNullsB = true :=
  noNulls_mapCol "country" _ h (fun _ => by simp)

theorem noNulls_deriveLength {t : Table} (h : t.noNullsB = true) :
    (deriveLength t).noNullsB = true := by
  unfold deriveLength
  cases hp : posOf t.header "location" with
  | none => exact h
  | some j => exact noNulls_putCol _ _ h (fun _ => by simp)

/-! ## The sorted categories array and its codes -/

theorem posOf_getElem? {l : List String} {v : String} {i : Nat}
    (h : posOf l v = some i) : l[i]? = some v := by
  have hlt := posOf_some_lt h
  rw [List.getElem?_eq_getElem hlt]
  exact congrArg some (posOf_get h hlt)

theorem categories_perm (l : List String) : List.Perm (categories l) l.dedup :=
  List.perm_insertionSort strLeP l.dedup

theorem categories_nodup (l : List String) : (categories l).Nodup :=
  (categories_perm l).symm.nodup (List.nodup_dedup l)

theorem mem_categories {l : List String} {v : String} : v ∈ categories l ↔ v ∈ l :=
  (categories_perm l).mem_iff.trans List.mem_dedup

theorem categories_length (l : List String) :
    (categories l).length = l.dedup.length :=
  (categories_perm l).length_eq

theorem categories_sorted (l : List String) : (categories l).Pairwise strLeP :=
  List.sorted_insertionSort strLeP l.dedup

theorem categories_strict (l : List String) : (categories l).Pairwise (· < ·) := by
  have h1 := categories_sorted l
  have h2 : (categories l).Pairwise (· ≠ ·) := categories_nodup l
  exact (h1.and h2).imp (fun hab => lt_of_le_of_ne (strLeP_iff.mp hab.1) hab.2)

theorem catCode_pos {l : List String} {s : String} (h : s ∈ l) :
    ∃ i : Nat, posOf (categories l) s = some i ∧ i < l.dedup.length ∧
      catCode l s = (i : Int) := by
  obtain ⟨i, hp⟩ := posOf_isSome_of_mem (mem_categories.mpr h)
  have hlt : i < (categories l).length := posOf_some_lt hp
  rw [categories_length] at hlt
  refine ⟨i, hp, hlt, ?_⟩
  unfold catCode
  rw [hp]
  rfl

theorem catCode_bounds {l : List String} {s : String} (h : s ∈ l) :
    0 ≤ catCode l s ∧ catCode l s < (l.dedup.length : Int) := by
  obtain ⟨i, _, hlt, hc⟩ := catCode_pos h
  rw [hc]
  exact ⟨Int.natCast_nonneg i, by exact_mod_cast hlt⟩

theorem catCode_inj {l : List String} {s₁ s₂ : String} (h₁ : s₁ ∈ l) (h₂ : s₂ ∈ l)
    (h : catCode l s₁ = catCode l s₂) : s₁ = s₂ := by
  obtain ⟨i₁, hp₁, _, hc₁⟩ := catCode_pos h₁
  obtain ⟨i₂, hp₂, _, hc₂⟩ := catCode_pos h₂
  rw [hc₁, hc₂] at h
  have hii : i₁ = i₂ := by exact_mod_cast h
  subst hii
  have e₁ := posOf_getElem? hp₁
  have e₂ := posOf_getElem? hp₂
  rw [e₁] at e₂
  exact Option.some.inj e₂

theorem catCode_surj {l : List String} {i : Int} (h0 : 0 ≤ i)
    (hk : i < (l.dedup.length : Int)) : ∃ s ∈ l, catCode l s = i := by
  have hn : i.toNat < (categories l).length := by
    rw [categories_length]
    omega
  refine ⟨(categories l).get ⟨i.toNat, hn⟩, ?_, ?_⟩
  · exact mem_categories.mp (List.get_mem _ _ _)
  · have hp : posOf (categories l) ((categories l).get ⟨i.toNat, hn⟩) = some i.toNat := by
      rw [List.get_eq_getElem]
      exact posOf_get_self (categories_nodup l) i.toNat hn
    have hv : catCode l ((categories l).get ⟨i.toNat, hn⟩) = Int.ofNat i.toNat := by
      unfold catCode
      rw [hp]
    rw [hv]
    exact Int.toNat_of_nonneg h0

theorem catCode_mono {l : List String} {s₁ s₂ : String} (h₁ : s₁ ∈ l) (h₂ : s₂ ∈ l)
    (h : s₁ < s₂) : catCode l s₁ < catCode l s₂ := by
  obtain ⟨i₁, hp₁, _, hc₁⟩ := catCode_pos h₁
  obtain ⟨i₂, hp₂, _, hc₂⟩ := catCode_pos h₂
  have hl₁ : i₁ < (categories l).length := posOf_some_lt hp₁
  have hl₂ : i₂ < (categories l).length := posOf_some_lt hp₂
  have hg₁ : (categories l)[i₁] = s₁ := posOf_get hp₁ hl₁
  have hg₂ : (categories l)[i₂] = s₂ := posOf_get hp₂ hl₂
  rw [hc₁, hc₂]
  have hii : i₁ < i₂ := by
    rcases Nat.lt_trichotomy i₁ i₂ with hlt | heq | hgt
    · exact hlt
    · exfalso
      subst heq
      exact ne_of_lt h (hg₁.symm.trans hg₂)
    · exfalso
      have := List.pairwise_iff_get.mp (categories_strict l) ⟨i₂, hl₂⟩ ⟨i₁, hl₁⟩ hgt
      rw [List.get_eq_getElem, List.get_eq_getElem, hg₁, hg₂] at this
      exact absurd this (lt_asymm h)
  exact_mod_cast hii

/-! ## The claims -/

/-- C3: `fillNulls` keeps the header (hence the column count) and the row
count, leaves no null cell, and keeps every cell that was non-null in the
input unchanged (stated for an arbitrary sentinel, hence for "Unknown"). -/
theorem fillNulls_clean (t : Table) (sentinel : String) :
    (fillNulls t sentinel).header = t.header ∧
    (fillNulls t sentinel).rows.length = t.rows.length ∧
    (fillNulls t sentinel).noNullsB = true ∧
    ∀ (i j : Nat) (r : List Cell) (c : Cell),
      t.rows[i]? = some r → r[j]? = some c → c ≠ Cell.null →
      ∃ r', (fillNulls t sentinel).rows[i]? = some r' ∧ r'.length = r.length ∧
        r'[j]? = some c := by
  refine ⟨rfl, by simp [fillNulls], noNulls_fillNulls t sentinel, ?_⟩
  intro i j r c hi hjc hc
  refine ⟨r.map (fillCell sentinel), ?_, by simp, ?_⟩
  · show (t.rows.map (List.map (fillCell sentinel)))[i]? = _
    rw [List.getElem?_map, hi]
    rfl
  · rw [List.getElem?_map, hjc]
    have hfc : fillCell sentinel c = c := by
      cases c
      · exact absurd rfl hc
      · rfl
      · rfl
    simp [hfc]

/-- C10: the null-fill produces a null-free working table, and both
subsequent in-place stages (country title-casing and the location-length
column) preserve null-freeness, so every downstream stage (sort, filter,
aggregation, rendering) reads a null-free table. -/
theorem pipeline_null_free (t : Table) :
    (fillNulls t "Unknown").noNullsB = true ∧
    (∀ u : Table, u.noNullsB = true → (normalizeCountry u).noNullsB = true) ∧
    (∀ u : Table, u.noNullsB = true → (deriveLength u).noNullsB = true) ∧
    (pipelineTable t).noNullsB = true :=
  ⟨noNulls_fillNulls t "Unknown",
   fun _ hu => noNulls_normalizeCountry hu,
   fun _ hu => noNulls_deriveLength hu,
   noNulls_deriveLength (noNulls_normalizeCountry (noNulls_fillNulls t "Unknown"))⟩

/-- C9 counterexample: title-casing the country column twice is not the
same as once.  On the cell "aİb", the first pass lowercases İ (U+0130) to
`i` + combining dot above (U+0307) — giving "Ai̇b" — and in the second pass
the uncased combining dot clears the cased flag, so the following `b` is
titlecased: "Ai̇B".  (CPython: `'aİb'.title() = 'Ai̇b'` but
`'Ai̇b'.title() = 'Ai̇B'`.) -/
theorem normalizeCountry_not_idempotent :
    normalizeCountry ⟨["country"], [[Cell.str "aİb"]]⟩ =
      ⟨["country"], [[Cell.str "Ai\u0307b"]]⟩ ∧
    normalizeCountry (normalizeCountry ⟨["country"], [[Cell.str "aİb"]]⟩) =
      ⟨["country"], [[Cell.str "Ai\u0307B"]]⟩ ∧
    normalizeCountry (normalizeCountry ⟨["country"], [[Cell.str "aİb"]]⟩) ≠
      normalizeCountry ⟨["country"], [[Cell.str "aİb"]]⟩ := by
  decide

/-- C9 amended: title-case normalization of the country column is
idempotent on every table whose country column holds only ASCII text
(after the cellwise `astype(str)`), including tables without the column,
where both applications are no-ops.  On full Unicode it is not idempotent
(see the counterexample with "aİb"). -/
theorem normalizeCountry_ascii_idempotent (t : Table)
    (h : (colStrings t "country").all asciiOnly = true) :
    normalizeCountry (normalizeCountry t) = normalizeCountry t := by
  refine mapCol_idem_of t "country" _ (fun c hc => ?_)
  have hca : asciiOnly (pyStr c) = true :=
    List.all_eq_true.mp h (pyStr c) (List.mem_map_of_mem pyStr hc)
  exact congrArg Cell.str (pyTitle_idem_ascii hca)

theorem normalizeCountry_ascii_idempotent_witness :
    normalizeCountry (normalizeCountry
        ⟨["country", "location"], [[Cell.str "india", Cell.null], [Cell.str "NEW zealand", Cell.str "x"]]⟩) =
      normalizeCountry
        ⟨["country", "location"], [[Cell.str "india", Cell.null], [Cell.str "NEW zealand", Cell.str "x"]]⟩ :=
  normalizeCountry_ascii_idempotent
    ⟨["country", "location"], [[Cell.str "india", Cell.null], [Cell.str "NEW zealand", Cell.str "x"]]⟩
    (by decide)

/-- C7 counterexample: on a table without the `country` column the
aggregation section displays nothing at all — there is no informational
signal (the claim requires one), though indeed no error. -/
theorem aggStage_absent_column_no_signal :
    aggStage ⟨["continent"], [[Cell.str "Asia"]]⟩ = [] := by decide

/-- C7 amended: when the grouping column is absent the aggregation stage is
skipped silently: the guard has no `else` branch, so the stage emits no
output at all — an empty result and no error, but also no informational
signal. -/
theorem aggStage_absent_silent (t : Table) (h : "country" ∉ t.header) :
    aggStage t = [] := by
  simp [aggStage, h]

theorem aggStage_absent_silent_witness : aggStage ⟨["continent"], []⟩ = [] :=
  aggStage_absent_silent ⟨["continent"], []⟩ (by decide)

/-- C8: with the continent column present, the filter stage shows exactly
the rows whose continent cell equals the string "Asia" under exact,
case-sensitive cell equality (the boolean-mask filter); with the column
absent it shows an informational notice and raises no error. -/
theorem filterStage_spec (t : Table) :
    (∀ j, posOf t.header "continent" = some j →
      filterStage t = [Event.table ⟨t.header,
        t.rows.filter (fun r => cellAt r j == Cell.str "Asia")⟩] ∧
      (∀ r, r ∈ (filterEquals t "continent" (Cell.str "Asia")).rows ↔
        r ∈ t.rows ∧ cellAt r j = Cell.str "Asia")) ∧
    ("continent" ∉ t.header →
      filterStage t = [Event.info "Continent column not found."]) := by
  constructor
  · intro j hj
    have hmem : "continent" ∈ t.header := by
      by_contra hc
      rw [posOf_eq_none.mpr hc] at hj
      cases hj
    have hfe : filterEquals t "continent" (Cell.str "Asia") =
        ⟨t.header, t.rows.filter (fun r => cellAt r j == Cell.str "Asia")⟩ := by
      unfold filterEquals
      rw [hj]
    constructor
    · simp only [filterStage, if_pos hmem, hfe]
    · intro r
      rw [hfe]
      show r ∈ t.rows.filter _ ↔ _
      rw [List.mem_filter]
      simp only [beq_iff_eq]
  · intro h
    simp [filterStage, h]

/-- C2 counterexample: on a single-row table the histogram renderer does not
run to completion: the density-curve overlay calls scipy's `gaussian_kde`,
which rejects a dataset with fewer than two elements. -/
theorem renderHist_single_row_fails :
    renderHist ⟨["location", "location_length"], [[Cell.str "Kerala", Cell.num 6]]⟩ =
      Except.error "dataset input should have multiple elements" := by rfl

/-- C2 amended: the bar and donut renderers complete on every table, and the
histogram renderer completes iff the `location_length` column is absent or
holds at least two values that are not all equal; on a single-row table (or
an all-equal column) the density-curve estimation raises. -/
theorem renderers_amended (t : Table) :
    (renderBar t).isOk = true ∧
    (renderDonut t).isOk = true ∧
    ((renderHist t).isOk = true ↔
      ("location_length" ∉ t.header ∨ kdeDefined (colCells t "location_length") = true)) := by
  refine ⟨rfl, rfl, ?_⟩
  by_cases hmem : "location_length" ∈ t.header
  · simp only [renderHist, if_pos hmem, hmem, not_true_eq_false, false_or]
    cases hdata : colCells t "location_length" with
    | nil => simp [gaussianKde, kdeDefined, Except.isOk, Except.toBool]
    | cons a rest =>
      cases rest with
      | nil => simp [gaussianKde, kdeDefined, Except.isOk, Except.toBool]
      | cons b rest' =>
        by_cases hall : (b :: rest').all (fun c => c == a) = true
        · simp [gaussianKde, kdeDefined, hall, Except.isOk, Except.toBool]
        · simp [gaussianKde, kdeDefined, hall, Except.isOk, Except.toBool]
  · simp [renderHist, hmem, Except.isOk, Except.toBool]

/-- C4: with a `location` column present (and `location_length` not already
a column), `deriveLength` appends a numeric column of the same row count
whose i-th entry is the character length of the i-th location cell rendered
to text; the sentinel "Unknown" gets length 7. -/
theorem deriveLength_spec (t : Table) (j : Nat)
    (hj : posOf t.header "location" = some j)
    (hnew : "location_length" ∉ t.header)
    (hrect : t.rectB = true) :
    (deriveLength t).header = t.header ++ ["location_length"] ∧
    (deriveLength t).rows.length = t.rows.length ∧
    colCells (deriveLength t) "location_length" =
      (colCells t "location").map (fun c => Cell.num (Int.ofNat (pyStr c).length)) ∧
    (pyStr (Cell.str "Unknown")).length = 7 := by
  have hd : deriveLength t = putCol t "location_length"
      (fun r => Cell.num (Int.ofNat (pyStr (cellAt r j)).length)) := by
    unfold deriveLength
    rw [hj]
  obtain ⟨hh, hr, hc⟩ := putCol_append t "location_length"
    (fun r => Cell.num (Int.ofNat (pyStr (cellAt r j)).length)) hnew hrect
  refine ⟨by rw [hd]; exact hh, by rw [hd, hr]; simp, ?_, rfl⟩
  rw [hd, hc, colCells_eq hj, List.map_map]
  rfl

theorem deriveLength_spec_witness :
    colCells (deriveLength ⟨["location"], [[Cell.str "Kerala"], [Cell.str "Unknown"]]⟩)
        "location_length" =
      [Cell.num 6, Cell.num 7] := by
  have h := deriveLength_spec ⟨["location"], [[Cell.str "Kerala"], [Cell.str "Unknown"]]⟩ 0
    (by decide) (by decide) (by decide)
  rw [h.2.2.1]
  decide

/-- C1 counterexample: for the category values ["Flood", "Drought"] the
first-seen rule of the claim gives the first value, "Flood", code 0, but the
program's `cat.codes` (sorted categories) gives "Flood" code 1 and
"Drought" code 0. -/
theorem encodeCategory_not_first_seen :
    colCells (encodeCategory ⟨["disastertype"], [[Cell.str "Flood"], [Cell.str "Drought"]]⟩)
        "disastertype_code" = [Cell.num 1, Cell.num 0] ∧
    firstSeenCode ["Flood", "Drought"] "Flood" = 0 ∧
    catCode ["Flood", "Drought"] "Flood" = 1 := by decide

/-- C1 amended: `encodeCategory` appends an integer column holding the
`cat.codes` of the category column; the code map is a bijection between the
distinct category values and `{0..k-1}` (k = number of distinct values),
but the codes are assigned in ascending lexicographic order of the distinct
values — smallest value gets 0 — not in first-seen order. -/
theorem encodeCategory_spec (t : Table) (j : Nat)
    (hj : posOf t.header "disastertype" = some j)
    (hnew : "disastertype_code" ∉ t.header)
    (hrect : t.rectB = true) :
    (encodeCategory t).header = t.header ++ ["disastertype_code"] ∧
    colCells (encodeCategory t) "disastertype_code" =
      (colStrings t "disastertype").map
        (fun s => Cell.num (catCode (colStrings t "disastertype") s)) ∧
    (∀ l : List String, ∀ s ∈ l,
      0 ≤ catCode l s ∧ catCode l s < (l.dedup.length : Int)) ∧
    (∀ l : List String, ∀ s₁ ∈ l, ∀ s₂ ∈ l,
      catCode l s₁ = catCode l s₂ → s₁ = s₂) ∧
    (∀ l : List String, ∀ i : Int, 0 ≤ i → i < (l.dedup.length : Int) →
      ∃ s ∈ l, catCode l s = i) ∧
    (∀ l : List String, ∀ s₁ ∈ l, ∀ s₂ ∈ l, s₁ < s₂ →
      catCode l s₁ < catCode l s₂) := by
  have he : encodeCategory t = putCol t "disastertype_code"
      (fun r => Cell.num (catCode (colStrings t "disastertype") (pyStr (cellAt r j)))) := by
    unfold encodeCategory
    rw [hj]
  obtain ⟨hh, hr, hc⟩ := putCol_append t "disastertype_code"
    (fun r => Cell.num (catCode (colStrings t "disastertype") (pyStr (cellAt r j))))
    hnew hrect
  refine ⟨by rw [he]; exact hh, ?_,
    fun l s hs => catCode_bounds hs,
    fun l s₁ h₁ s₂ h₂ h => catCode_inj h₁ h₂ h,
    fun l i h0 hk => catCode_surj h0 hk,
    fun l s₁ h₁ s₂ h₂ h => catCode_mono h₁ h₂ h⟩
  rw [he, hc]
  unfold colStrings
  rw [colCells_eq hj, List.map_map, List.map_map]
  rfl

theorem encodeCategory_spec_witness :
    colCells (encodeCategory ⟨["disastertype"], [[Cell.str "Flood"], [Cell.str "Drought"]]⟩)
        "disastertype_code" =
      (colStrings ⟨["disastertype"], [[Cell.str "Flood"], [Cell.str "Drought"]]⟩ "disastertype").map
        (fun s => Cell.num (catCode
          (colStrings ⟨["disastertype"], [[Cell.str "Flood"], [Cell.str "Drought"]]⟩ "disastertype") s)) :=
  (encodeCategory_spec ⟨["disastertype"], [[Cell.str "Flood"], [Cell.str "Drought"]]⟩ 0
    (by decide) (by decide) (by decide)).2.1

/-- C6: with the `country` column present and null-free (as it is after
cleaning), the aggregation stage shows the group sizes; the sizes sum to
the row count, and the distinct values of the column are exactly the keys,
each appearing once. -/
theorem countByGroup_spec (t : Table)
    (hmem : "country" ∈ t.header)
    (hnn : (colCells t "country").all (fun c => !(c == Cell.null)) = true) :
    aggStage t = [Event.groupResult (countByGroup (colCells t "country"))] ∧
    ((countByGroup (colCells t "country")).map Prod.snd).sum = t.rows.length ∧
    ((countByGroup (colCells t "country")).map Prod.fst).Nodup ∧
    (∀ v : Cell, v ∈ (countByGroup (colCells t "country")).map Prod.fst ↔
      v ∈ colCells t "country") := by
  obtain ⟨j, hj⟩ := posOf_isSome_of_mem hmem
  have hfil : (colCells t "country").filter (fun c => !(c == Cell.null)) =
      colCells t "country" :=
    List.filter_eq_self.mpr (List.all_eq_true.mp hnn)
  have hkeys : (countByGroup (colCells t "country")).map Prod.fst =
      List.insertionSort cellLeP (colCells t "country").dedup := by
    unfold countByGroup
    rw [hfil, List.map_map]
    exact List.map_id' _
  have hperm : List.Perm (List.insertionSort cellLeP (colCells t "country").dedup)
      (colCells t "country").dedup :=
    List.perm_insertionSort _ _
  refine ⟨by simp [aggStage, hmem], ?_, ?_, ?_⟩
  · have h1 : (countByGroup (colCells t "country")).map Prod.snd =
        (List.insertionSort cellLeP (colCells t "country").dedup).map
          (fun v => (colCells t "country").count v) := by
      unfold countByGroup
      rw [hfil, List.map_map]
      rfl
    rw [h1, (hperm.map _).sum_eq, List.sum_map_count_dedup_eq_length]
    exact colCells_length hj
  · rw [hkeys]
    exact hperm.symm.nodup (List.nodup_dedup _)
  · intro v
    rw [hkeys, hperm.mem_iff, List.mem_dedup]

theorem countByGroup_spec_witness :
    ((countByGroup (colCells ⟨["country"],
        [[Cell.str "India"], [Cell.str "Chile"], [Cell.str "India"]]⟩ "country")).map
      Prod.snd).sum = 3 := by
  have h := countByGroup_spec ⟨["country"],
    [[Cell.str "India"], [Cell.str "Chile"], [Cell.str "India"]]⟩ (by decide) (by decide)
  rw [h.2.1]
  rfl
